import Mathlib

set_option autoImplicit false

/-!
Verification development for the knowledge-base hybrid retrieval engine.

The definitions below are shallow embeddings of the Python source:
* `splitSent`, `packAux`, `splitText` embed
  `SiliconFlowEmbeddingGenerator._split_text` (src/core/embedding_generator.py).
* Strings are modelled as `List Char`, matching Python `str` (a sequence of
  code points; `len` = number of code points = `List.length`).
-/

/-- Delimiter class of the sentence-splitting regex in
`SiliconFlowEmbeddingGenerator._split_text`.  The source character class
`[。！？！？\n]` contains the fullwidth 。 ！ ？ (the fullwidth pair is written
twice) and the newline; ASCII `!` and `?` are NOT in the class. -/
def isDelim (c : Char) : Bool :=
  c = '。' || c = '！' || c = '？' || c = '\n'

/-- Model of `re.split(r'([。！？！？\n]+)', text)`: the alternating list of
non-delimiter segments and maximal delimiter runs, both kept (the regex group
keeps delimiters); empty segments appear exactly where Python `re.split`
produces them (before a leading run, after a trailing run, between two runs —
though `+` makes adjacent runs a single fragment). -/
def splitSent : List Char → List (List Char)
  | [] => [[]]
  | [c] => if isDelim c then [[], [c], []] else [[c]]
  | c :: c2 :: cs =>
    if isDelim c then
      if isDelim c2 then
        match splitSent (c2 :: cs) with
        | _ :: run :: rest => [] :: (c :: run) :: rest
        | _ => [[], [c], []]
      else
        [] :: [c] :: splitSent (c2 :: cs)
    else
      match splitSent (c2 :: cs) with
      | [] => [[c]]
      | s :: ss => (c :: s) :: ss

/-- Greedy packing loop of `_split_text`: the running buffer `current` is the
list of fragments accumulated so far (Python `current_chunk`, whose tracked
`current_length` is always the length of its concatenation), and `rest` the
fragments still to process.  A chunk is flushed when appending the next
fragment would exceed `maxChars`, unless the buffer is empty; the trailing
buffer is flushed at the end (Python `if current_chunk: chunks.append(...)`). -/
def packAux (maxChars : Nat) : List (List Char) → List (List Char) → List (List Char)
  | current, [] => if current = [] then [] else [current.flatten]
  | current, s :: rest =>
    if current.flatten.length + s.length > maxChars ∧ current ≠ [] then
      current.flatten :: packAux maxChars [s] rest
    else
      packAux maxChars (current ++ [s]) rest

/-- Embedding of `SiliconFlowEmbeddingGenerator._split_text(text, max_chars)`:
return `[text]` when `len(text) <= max_chars`, otherwise split into sentence
fragments and greedily pack them; `return chunks if chunks else [text]`. -/
def splitText (text : List Char) (maxChars : Nat) : List (List Char) :=
  if text.length ≤ maxChars then [text]
  else
    let chunks := packAux maxChars [] (splitSent text)
    if chunks = [] then [text] else chunks

/-! ### Embedding client (`SiliconFlowEmbeddingGenerator`)

`_get_cache_key` is `hashlib.sha256(text.encode('utf-8')).hexdigest()`; the
SHA-256 compression function and the UTF-8 encoder are embedded below over
`Nat` (all 32-bit arithmetic is explicit `% 2^32`). -/

/-- Truncation to a 32-bit word. -/
def w32 (n : Nat) : Nat := n % 4294967296

/-- 32-bit right rotation. -/
def rotr32 (k x : Nat) : Nat := w32 ((x >>> k) ||| (x <<< (32 - k)))

def shaCh (x y z : Nat) : Nat := (x &&& y) ^^^ ((4294967295 ^^^ x) &&& z)

def shaMaj (x y z : Nat) : Nat := (x &&& y) ^^^ (x &&& z) ^^^ (y &&& z)

def bigSigma0 (x : Nat) : Nat := rotr32 2 x ^^^ rotr32 13 x ^^^ rotr32 22 x

def bigSigma1 (x : Nat) : Nat := rotr32 6 x ^^^ rotr32 11 x ^^^ rotr32 25 x

def smallSigma0 (x : Nat) : Nat := rotr32 7 x ^^^ rotr32 18 x ^^^ (x >>> 3)

def smallSigma1 (x : Nat) : Nat := rotr32 17 x ^^^ rotr32 19 x ^^^ (x >>> 10)

/-- The 64 SHA-256 round constants (FIPS 180-4, written in decimal). -/
def shaK : List Nat :=
  [1116352408, 1899447441, 3049323471, 3921009573, 961987163,
   1508970993, 2453635748, 2870763221, 3624381080, 310598401,
   607225278, 1426881987, 1925078388, 2162078206, 2614888103,
   3248222580, 3835390401, 4022224774, 264347078, 604807628,
   770255983, 1249150122, 1555081692, 1996064986, 2554220882,
   2821834349, 2952996808, 3210313671, 3336571891, 3584528711,
   113926993, 338241895, 666307205, 773529912, 1294757372,
   1396182291, 1695183700, 1986661051, 2177026350, 2456956037,
   2730485921, 2820302411, 3259730800, 3345764771, 3516065817,
   3600352804, 4094571909, 275423344, 430227734, 506948616,
   659060556, 883997877, 958139571, 1322822218, 1537002063,
   1747873779, 1955562222, 2024104815, 2227730452, 2361852424,
   2428436474, 2756734187, 3204031479, 3329325298]

/-- The SHA-256 initial hash state (decimal). -/
def shaH0 : List Nat :=
  [1779033703, 3144134277, 1013904242, 2773480762, 1359893119,
   2600822924, 528734635, 1541459225]

/-- Merkle–Damgård padding: append `0x80`, zero bytes to 56 mod 64, then the
bit length as an 8-byte big-endian integer. -/
def shaPad (msg : List Nat) : List Nat :=
  let lenBits := msg.length * 8
  let zeros := (64 + 56 - ((msg.length + 1) % 64)) % 64
  msg ++ [0x80] ++ List.replicate zeros 0 ++
    [(lenBits >>> 56) % 256, (lenBits >>> 48) % 256, (lenBits >>> 40) % 256,
     (lenBits >>> 32) % 256, (lenBits >>> 24) % 256, (lenBits >>> 16) % 256,
     (lenBits >>> 8) % 256, lenBits % 256]

/-- Split a byte list into 64-byte blocks (`fuel` bounds the recursion depth;
with `fuel = bs.length` every step strictly shrinks the list, so the `fuel = 0`
fallback is never reached on a nonempty list). -/
def toBlocksAux : Nat → List Nat → List (List Nat)
  | _, [] => []
  | 0, bs => [bs]
  | fuel + 1, bs => bs.take 64 :: toBlocksAux fuel (bs.drop 64)

/-- Split a byte list into 64-byte blocks. -/
def toBlocks (bs : List Nat) : List (List Nat) := toBlocksAux bs.length bs

/-- Big-endian bytes (groups of 4) to 32-bit words. -/
def bytesToWords : List Nat → List Nat
  | b0 :: b1 :: b2 :: b3 :: rest =>
    (b0 <<< 24 ||| b1 <<< 16 ||| b2 <<< 8 ||| b3) :: bytesToWords rest
  | _ => []

/-- One extension step of the SHA-256 message schedule. -/
def scheduleStep (ws : List Nat) : List Nat :=
  ws ++ [w32 (smallSigma1 (ws.getD (ws.length - 2) 0) + ws.getD (ws.length - 7) 0 +
    smallSigma0 (ws.getD (ws.length - 15) 0) + ws.getD (ws.length - 16) 0)]

/-- One SHA-256 compression round on the 8-word working state. -/
def compressRound (st : List Nat) (kw : Nat × Nat) : List Nat :=
  match st with
  | [a, b, c, d, e, f, g, h] =>
    let t1 := w32 (h + bigSigma1 e + shaCh e f g + kw.1 + kw.2)
    let t2 := w32 (bigSigma0 a + shaMaj a b c)
    [w32 (t1 + t2), a, b, c, w32 (d + t1), e, f, g]
  | _ => st

/-- Process one 64-byte block against the running hash state. -/
def processBlock (hs : List Nat) (block : List Nat) : List Nat :=
  let ws := (List.range 48).foldl (fun acc _ => scheduleStep acc) (bytesToWords block)
  let st := (shaK.zip ws).foldl compressRound hs
  List.zipWith (fun x y => w32 (x + y)) hs st

/-- 32-bit word to 4 big-endian bytes. -/
def wordToBytes (w : Nat) : List Nat :=
  [(w >>> 24) % 256, (w >>> 16) % 256, (w >>> 8) % 256, w % 256]

/-- SHA-256 of a byte list, as a 32-byte list. -/
def sha256 (msg : List Nat) : List Nat :=
  (((toBlocks (shaPad msg)).foldl processBlock shaH0).map wordToBytes).flatten

def hexChar (n : Nat) : Char :=
  if n < 10 then Char.ofNat (48 + n) else Char.ofNat (87 + n)

/-- Lowercase hex string of a byte list (`hexdigest`). -/
def hexDigest (bytes : List Nat) : String :=
  ((bytes.map fun b => [hexChar (b / 16), hexChar (b % 16)]).flatten).asString

/-- UTF-8 encoding of one code point (`str.encode('utf-8')` per character). -/
def utf8Bytes (c : Char) : List Nat :=
  let n := c.toNat
  if n < 0x80 then [n]
  else if n < 0x800 then
    [0xC0 ||| (n >>> 6), 0x80 ||| (n &&& 0x3F)]
  else if n < 0x10000 then
    [0xE0 ||| (n >>> 12), 0x80 ||| ((n >>> 6) &&& 0x3F), 0x80 ||| (n &&& 0x3F)]
  else
    [0xF0 ||| (n >>> 18), 0x80 ||| ((n >>> 12) &&& 0x3F),
     0x80 ||| ((n >>> 6) &&& 0x3F), 0x80 ||| (n &&& 0x3F)]

def utf8Encode (s : String) : List Nat := (s.data.map utf8Bytes).flatten

/-- Embedding of `SiliconFlowEmbeddingGenerator._get_cache_key`:
`hashlib.sha256(text.encode('utf-8')).hexdigest()`. -/
def cacheKey (text : String) : String := hexDigest (sha256 (utf8Encode text))

/-- Outcome of one HTTP call to the remote embedding service: a parsed
`result['data'][0]['embedding']` on success, or any raised error (network
failure, non-200 status, malformed body) on failure.  Vector components are
modelled as `ℚ`. -/
inductive RemoteOutcome where
  | success (embedding : List ℚ)
  | failure (err : String)

/-- The zero-vector fallback `[0.0] * 1024`. -/
def zeroVector : List ℚ := List.replicate 1024 0

/-- Embedding of `_generate_single_chunk`: every exception of the remote call
is caught and the 1024-dimension zero vector returned instead. -/
def generateSingleChunk (remote : String → RemoteOutcome) (text : String) :
    List ℚ :=
  match remote text with
  | .success e => e
  | .failure _ => zeroVector

/-- The embedding cache `self.cache`, a dict from hex digest to vector;
assignment is modelled by prepending (lookup finds the newest binding, as in a
dict overwrite). -/
abbrev EmbeddingCache := List (String × List ℚ)

/-- Result of one `generate_async` call: the returned vector, the cache
afterwards, and how many `_generate_single_chunk` remote calls were issued. -/
structure GenResult where
  embedding : List ℚ
  cache : EmbeddingCache
  remoteCalls : Nat

/-- Average pooling
`[sum(emb[i] for emb in embeddings) / len(embeddings) for i in range(len(embeddings[0]))]`
(on ragged input Python would raise; `getD i 0` is only ever used where every
vector has the indexed position). -/
def avgPool (embeddings : List (List ℚ)) : List ℚ :=
  match embeddings with
  | [] => []
  | e0 :: _ =>
    (List.range e0.length).map fun i =>
      ((embeddings.map fun e => e.getD i 0).sum) / (embeddings.length : ℚ)

/-- Cache-miss branch of `generate_async`: split the text (`max_chars = 300`),
embed the single chunk directly, or embed each chunk and average-pool. -/
def missEmbedding (remote : String → RemoteOutcome) (text : String) : List ℚ :=
  let chunks := splitText text.data 300
  if chunks.length = 1 then
    generateSingleChunk remote (chunks.headD []).asString
  else
    avgPool (chunks.map fun ch => generateSingleChunk remote ch.asString)

/-- Embedding of `SiliconFlowEmbeddingGenerator.generate_async`: on a cache
hit return the cached vector with no remote call; on a miss compute
`missEmbedding` (one `_generate_single_chunk` call per chunk), store the
result under the text's key and return it (`_save_cache` is file I/O and out
of model). -/
def generateAsync (remote : String → RemoteOutcome) (cache : EmbeddingCache)
    (text : String) : GenResult :=
  match cache.lookup (cacheKey text) with
  | some v => ⟨v, cache, 0⟩
  | none =>
    ⟨missEmbedding remote text,
     (cacheKey text, missEmbedding remote text) :: cache,
     (splitText text.data 300).length⟩

/-! ### Hybrid search orchestrator (`KnowledgeSearch`, src/core/knowledge_search.py) -/

/-- One search hit as it flows through `KnowledgeSearch`: a dict with
`content`, `metadata` (a string map, modelled as an association list) and an
optional `distance`. -/
structure SearchResult where
  content : String
  metadata : List (String × String)
  distance : Option ℚ
deriving DecidableEq

/-- Python `metadata.get(k, "")`. -/
def metaLookupD (m : List (String × String)) (k : String) : String :=
  (m.lookup k).getD ""

/-- The composite dedup key of `_hybrid_search`:
`result.get("metadata", {}).get("source", "") + str(result.get("content", "")[:50])`. -/
def dedupKey (r : SearchResult) : String :=
  metaLookupD r.metadata "source" ++ r.content.take 50

/-- The merge loop of `_hybrid_search`: walk the concatenated results keeping
a `seen_ids` set (modelled as the list of keys already seen); a result whose
key was seen is dropped, otherwise it is kept and its key recorded. -/
def dedupAux (seen : List String) : List SearchResult → List SearchResult
  | [] => []
  | r :: rest =>
    if dedupKey r ∈ seen then dedupAux seen rest
    else r :: dedupAux (dedupKey r :: seen) rest

def dedupResults (l : List SearchResult) : List SearchResult := dedupAux [] l

/-- Outcome of one sub-search call (the Python callee either returns a list
or raises). -/
abbrev SearchOutcome := Except String (List SearchResult)

deriving instance DecidableEq for Except

/-- Embedding of `KnowledgeSearch._hybrid_search`: the semantic sub-search
(`self.index.search`, an injected collaborator that may raise) and the
keyword sub-search are outcome-valued functions; an exception from either is
caught and replaced by `[]`; both are asked for `limit // 2 + 1` results;
then concatenate semantic ++ keyword, dedup, and truncate to `limit`. -/
def hybridSearch (semantic : List ℚ → Nat → SearchOutcome)
    (keyword : String → Nat → SearchOutcome)
    (query : String) (queryEmbedding : List ℚ) (limit : Nat) :
    List SearchResult :=
  let semanticResults := match semantic queryEmbedding (limit / 2 + 1) with
    | .ok rs => rs
    | .error _ => []
  let keywordResults := match keyword query (limit / 2 + 1) with
    | .ok rs => rs
    | .error _ => []
  (dedupResults (semanticResults ++ keywordResults)).take limit

/-- Embedding of `KnowledgeSearch._keyword_search` as shipped: the method is
an unimplemented stub — it logs "关键词搜索尚未实现，返回空结果" and returns
`[]` unconditionally (it never consults any index and never raises), despite
its docstring announcing SQLite FTS5 keyword search (`TODO` in the body). -/
def keywordSearchStub : String → Nat → SearchOutcome := fun _ _ => .ok []

/-- The synthetic degraded result built in `search`'s outer exception
handler: content "搜索服务暂时不可用", metadata `{"error": str(e)}`, `None`
distance. -/
def unavailableResult (e : String) : SearchResult :=
  ⟨"搜索服务暂时不可用", [("error", e)], none⟩

/-- Embedding of `KnowledgeSearch.search`: queries over 1000 characters raise
`ValueError` (before the `try` block, so it propagates, modelled as
`.error`); `limit` is clamped to 100; dispatch is on Python truthiness of
`query_embedding` (`None` and `[]` are falsy) and `use_hybrid`; an exception
escaping the chosen strategy is converted into the single synthetic
"service unavailable" result. -/
def searchModel (semantic : List ℚ → Nat → SearchOutcome)
    (keyword : String → Nat → SearchOutcome)
    (query : String) (queryEmbedding : Option (List ℚ)) (limit : Nat)
    (useHybrid : Bool) : Except String (List SearchResult) :=
  if query.length > 1000 then .error "查询过长，最大支持 1000 字符"
  else
    let l := min limit 100
    let body : SearchOutcome :=
      match queryEmbedding with
      | some v =>
        if useHybrid && !v.isEmpty then
          .ok (hybridSearch semantic keyword query v l)
        else if !v.isEmpty then semantic v l
        else keyword query l
      | none => keyword query l
    match body with
    | .ok rs => .ok rs
    | .error e => .ok [unavailableResult e]

/-! ### Vector index (`KnowledgeIndex`, src/core/knowledge_index.py) -/

/-- One hit of the ChromaDB `collection.query` answer: document text,
metadata and distance (the engine is the external vector storage
collaborator; its answer for a query embedding is its ranked hit list). -/
structure VectorHit where
  document : String
  metadata : List (String × String)
  distance : ℚ
deriving DecidableEq

/-- Embedding of `KnowledgeIndex.search`: clamp `limit = min(limit, 100)`,
query the collection with `n_results = limit` (the engine returns its ranking
truncated to the requested count), and format each hit as a result dict. -/
def knowledgeIndexSearch (engineRanking : List VectorHit) (limit : Nat) :
    List SearchResult :=
  (engineRanking.take (min limit 100)).map fun h =>
    ⟨h.document, h.metadata, some h.distance⟩

/-- A document passed to `KnowledgeIndex.add_documents`: a dict holding
`content` and `metadata`. -/
structure VDoc where
  content : String
  metadata : List (String × String)
deriving DecidableEq

/-- The ids `add_documents` assigns:
`ids = [f"doc_{i}" for i in range(len(documents))]`. -/
def addDocIds (documents : List VDoc) : List String :=
  (List.range documents.length).map fun i => "doc_" ++ toString i

/-- Embedding of `KnowledgeIndex.add_documents`'s effect on the collection:
an empty document list returns 0 and leaves the store untouched; otherwise
`collection.add` is called with `ids = addDocIds documents`, appending the
id-keyed entries, and `len(documents)` is returned. -/
def addDocuments (store : List (String × VDoc)) (documents : List VDoc) :
    List (String × VDoc) × Nat :=
  if documents = [] then (store, 0)
  else (store ++ (addDocIds documents).zip documents, documents.length)

/-! ### Keyword index (`KnowledgeSearchFTS`, src/core/knowledge_search_fts.py) -/

/-- Python `str.split()` (no argument): split on whitespace runs, discarding
empty pieces (`Char.isWhitespace` covers the ASCII whitespace used here). -/
def splitWS : List Char → List (List Char)
  | [] => []
  | [c] => if c.isWhitespace then [] else [[c]]
  | c :: c2 :: cs =>
    if c.isWhitespace then splitWS (c2 :: cs)
    else if c2.isWhitespace then [c] :: splitWS (c2 :: cs)
    else
      match splitWS (c2 :: cs) with
      | [] => [[c]]
      | w :: ws => (c :: w) :: ws

/-- The punctuation set of `keyword.strip('.,!?;:，。！？；：')`. -/
def puncSet (c : Char) : Bool :=
  ['.', ',', '!', '?', ';', ':', '，', '。', '！', '？', '；', '：'].contains c

/-- Python `str.strip(chars)`: remove leading and trailing characters of the
set. -/
def stripBoth (l : List Char) : List Char :=
  ((l.dropWhile puncSet).reverse.dropWhile puncSet).reverse

/-- Case-insensitive literal match of `kw` against the head of `text`
(`re.escape(kw)` with `re.IGNORECASE`; `Char.toLower` lowers ASCII letters,
which is all the casing the in-scope queries carry). -/
def matchAt (kw text : List Char) : Bool :=
  (text.take kw.length).map Char.toLower == kw.map Char.toLower

/-- The left-to-right non-overlapping scan of `pattern.sub`: at each position
either wrap a match as `**match**` and resume after it, or keep the character
and advance one.  `fuel` bounds the recursion depth; with `fuel =
text.length` and a nonempty keyword the `fuel = 0` fallback is never
reached. -/
def highlightAuxF : Nat → List Char → List Char → List Char
  | 0, _, text => text
  | _ + 1, _, [] => []
  | fuel + 1, kw, c :: rest =>
    if matchAt kw (c :: rest) ∧ kw ≠ [] then
      '*' :: '*' :: ((c :: rest).take kw.length ++
        '*' :: '*' :: highlightAuxF fuel kw ((c :: rest).drop kw.length))
    else c :: highlightAuxF fuel kw rest

/-- One keyword pass of `_highlight_matches`:
`re.compile(re.escape(kw), re.IGNORECASE).sub(lambda m: f"**{m.group()}**", text)`. -/
def highlightOne (text kw : List Char) : List Char :=
  highlightAuxF text.length kw text

/-- Embedding of `KnowledgeSearchFTS._highlight_matches`: split the query on
whitespace, strip punctuation from each keyword, skip keywords shorter than
2 characters, and apply the passes in order to the running text. -/
def highlightMatches (text query : String) : String :=
  (((splitWS query.data).foldl (fun acc kw =>
    let clean := stripBoth kw
    if clean.length < 2 then acc else highlightOne acc clean) text.data)).asString

/-- Number of case-insensitive occurrences of `pat` in `text`, all start
positions counted (overlap included). -/
def countOcc (pat : List Char) : List Char → Nat
  | [] => if matchAt pat [] then 1 else 0
  | c :: rest => (if matchAt pat (c :: rest) then 1 else 0) + countOcc pat rest

/-- One row of the FTS5 `SELECT ... WHERE knowledge_fts MATCH ? ORDER BY
score` answer, with its 1:1 `knowledge_meta` record attached. -/
structure FtsRow where
  content : String
  title : String
  tags : String
  source : String
  score : ℚ
  metadata : List (String × String)
deriving DecidableEq

/-- One formatted result dict of `KnowledgeSearchFTS.search`. -/
structure FtsResult where
  content : String
  title : String
  source : String
  tags : String
  score : ℚ
  metadata : List (String × String)
deriving DecidableEq

/-- Embedding of `KnowledgeSearchFTS.search`: `matched` is the lexical
engine's matched-and-ranked row list for the query (the external collaborator
behind the SQL); the `LIMIT ?` clause applies the caller's `limit` with no
clamping, and each row is formatted, highlighting the content when asked. -/
def ftsSearch (matched : List FtsRow) (query : String) (limit : Nat)
    (highlight : Bool) : List FtsResult :=
  (matched.take limit).map fun row =>
    { content := if highlight then highlightMatches row.content query else row.content
      title := row.title
      source := row.source
      tags := row.tags
      score := row.score
      metadata := row.metadata }

example : cacheKey "hello" =
    "2cf24dba5fb0a30e26e83b2ac5b9e29e1b161e5c1fa7425e73043362938b9824" := by
  decide

example : splitText "aaaa!aaa".data 3 = ["aaaa!aaa".data] := by decide

example : splitText "ab。cd".data 3 = ["ab。".data, "cd".data] := by decide

example : splitText "hi".data 300 = ["hi".data] := by decide

theorem splitSent_ne_nil : ∀ l : List Char, splitSent l ≠ [] := by
  intro l
  match l with
  | [] => simp [splitSent]
  | [c] => rw [splitSent]; split <;> simp
  | c :: c2 :: cs =>
    rw [splitSent]
    split
    · split
      · split <;> simp
      · simp
    · split <;> simp

theorem splitSent_delim_head (c2 : Char) (cs : List Char) (h : isDelim c2 = true) :
    ∃ run rest, splitSent (c2 :: cs) = [] :: run :: rest := by
  cases cs with
  | nil => rw [splitSent, if_pos h]; exact ⟨[c2], [[]], rfl⟩
  | cons c3 cs2 =>
    rw [splitSent, if_pos h]
    split
    · split
      · rename_i heq; exact ⟨_, _, rfl⟩
      · exact ⟨[c2], [[]], rfl⟩
    · exact ⟨[c2], _, rfl⟩

theorem splitSent_flatten : ∀ l : List Char, (splitSent l).flatten = l := by
  intro l
  induction l with
  | nil => simp [splitSent]
  | cons c rest ih =>
    cases rest with
    | nil => rw [splitSent]; split <;> simp
    | cons c2 cs =>
      rw [splitSent]
      split
      · split
        · rename_i hc hc2
          obtain ⟨run, rest2, hshape⟩ := splitSent_delim_head c2 cs hc2
          rw [hshape]
          rw [hshape] at ih
          simpa using ih
        · simpa using ih
      · rcases hs : splitSent (c2 :: cs) with _ | ⟨s, ss⟩
        · exact absurd hs (splitSent_ne_nil _)
        · rw [hs] at ih
          simpa using ih

theorem splitSent_no_delim (l : List Char) (h : ∀ c ∈ l, isDelim c = false) :
    splitSent l = [l] := by
  induction l with
  | nil => simp [splitSent]
  | cons c rest ih =>
    have hc : isDelim c = false := h c (by simp)
    cases rest with
    | nil => rw [splitSent, if_neg (by simp [hc])]
    | cons c2 cs =>
      rw [splitSent, if_neg (by simp [hc])]
      rw [ih (fun x hx => h x (by simp [hx]))]

theorem splitSent_length_ge2 (l : List Char) (h : ∃ c ∈ l, isDelim c = true) :
    2 ≤ (splitSent l).length := by
  induction l with
  | nil => simp at h
  | cons c rest ih =>
    cases rest with
    | nil =>
      rw [splitSent]
      have hc : isDelim c = true := by
        obtain ⟨x, hx, hdx⟩ := h
        simp at hx
        simpa [hx] using hdx
      rw [if_pos hc]
      simp
    | cons c2 cs =>
      rw [splitSent]
      split
      · split
        · split <;> simp
        · simp
      · rename_i hc
        have hrest : ∃ x ∈ c2 :: cs, isDelim x = true := by
          obtain ⟨x, hx, hdx⟩ := h
          rcases List.mem_cons.mp hx with rfl | hx2
          · exact absurd hdx (by simp [hc])
          · exact ⟨x, hx2, hdx⟩
        have h2 := ih hrest
        rcases hs : splitSent (c2 :: cs) with _ | ⟨s, ss⟩
        · exact absurd hs (splitSent_ne_nil _)
        · rw [hs] at h2
          simpa using h2

theorem packAux_flatten (m : Nat) :
    ∀ (rest current : List (List Char)),
      (packAux m current rest).flatten = current.flatten ++ rest.flatten := by
  intro rest
  induction rest with
  | nil =>
    intro current
    rw [packAux]
    split
    · rename_i hc; subst hc; simp
    · simp
  | cons s rest2 ih =>
    intro current
    rw [packAux]
    split
    · simp [ih]
    · simp [ih]

theorem packAux_ne_nil (m : Nat) :
    ∀ (rest current : List (List Char)), current ≠ [] → packAux m current rest ≠ [] := by
  intro rest
  induction rest with
  | nil =>
    intro current hc
    rw [packAux, if_neg hc]
    simp
  | cons s rest2 ih =>
    intro current hc
    rw [packAux]
    split
    · simp
    · exact ih (current ++ [s]) (by simp)

theorem packAux_length_ge2 (m : Nat) :
    ∀ (rest current : List (List Char)), current ≠ [] → rest ≠ [] →
      m < current.flatten.length + rest.flatten.length →
      2 ≤ (packAux m current rest).length := by
  intro rest
  induction rest with
  | nil => intro current _ hr _; exact absurd rfl hr
  | cons s rest2 ih =>
    intro current hc _ htot
    rw [packAux]
    split
    · have := packAux_ne_nil m rest2 [s] (by simp)
      have hlen : 1 ≤ (packAux m [s] rest2).length := by
        cases hp : packAux m [s] rest2 with
        | nil => exact absurd hp this
        | cons a b => simp
      simpa using Nat.succ_le_succ hlen
    · rename_i hcond
      have hle : current.flatten.length + s.length ≤ m := by
        rcases not_and_or.mp hcond with h1 | h2
        · omega
        · exact absurd (by simpa using h2) hc
      cases rest2 with
      | nil =>
        exfalso
        simp only [List.flatten_cons, List.flatten_nil, List.append_nil] at htot
        omega
      | cons t rest3 =>
        have := ih (current ++ [s]) (by simp) (by simp)
          (by
            simp only [List.flatten_cons, List.flatten_append, List.flatten_nil,
              List.append_nil, List.length_append] at htot ⊢
            omega)
        exact this

theorem packAux_splitSent_ne_nil (m : Nat) (text : List Char) :
    packAux m [] (splitSent text) ≠ [] := by
  rcases hs : splitSent text with _ | ⟨f, rest⟩
  · exact absurd hs (splitSent_ne_nil _)
  · rw [packAux, if_neg (by simp)]
    exact packAux_ne_nil m rest ([] ++ [f]) (by simp)

theorem packAux_oversize (m : Nat) :
    ∀ (rest current : List (List Char)),
      (current = [] ∨ (∃ s, current = [s]) ∨ current.flatten.length ≤ m) →
      ∀ chunk ∈ packAux m current rest, m < chunk.length →
        chunk ∈ current ∨ chunk ∈ rest := by
  intro rest
  induction rest with
  | nil =>
    intro current hinv chunk hmem hover
    rw [packAux] at hmem
    split at hmem
    · simp at hmem
    · simp at hmem
      subst hmem
      rcases hinv with rfl | ⟨s, rfl⟩ | hle
      · simp at hover
      · simp
      · omega
  | cons s rest2 ih =>
    intro current hinv chunk hmem hover
    rw [packAux] at hmem
    split at hmem
    · rcases List.mem_cons.mp hmem with rfl | htail
      · rcases hinv with rfl | ⟨t, rfl⟩ | hle
        · simp at hmem
          rename_i hcond
          exact absurd rfl hcond.2
        · left; simp
        · omega
      · rcases ih [s] (Or.inr (Or.inl ⟨s, rfl⟩)) chunk htail hover with h1 | h2
        · right; simp at h1; simp [h1]
        · right; exact List.mem_cons_of_mem _ h2
    · rename_i hcond
      have hinv2 : current ++ [s] = [] ∨ (∃ t, current ++ [s] = [t]) ∨
          (current ++ [s]).flatten.length ≤ m := by
        by_cases hc : current = []
        · subst hc; exact Or.inr (Or.inl ⟨s, rfl⟩)
        · right; right
          rcases not_and_or.mp hcond with h1 | h2
          · simp only [List.flatten_append, List.flatten_cons, List.flatten_nil,
              List.append_nil, List.length_append]
            omega
          · exact absurd (by simpa using h2) hc
      rcases ih (current ++ [s]) hinv2 chunk hmem hover with h1 | h2
      · rcases List.mem_append.mp h1 with ha | hb
        · left; exact ha
        · right; simp at hb; simp [hb]
      · right; exact List.mem_cons_of_mem _ h2

/-- Claim C4: for every text input with `len(text) ≤ maxChars` (including the
empty string, treated by the same branch), `_split_text` returns exactly one
chunk equal to the input text. -/
theorem chunker_small_input_identity (text : List Char) (maxChars : Nat)
    (h : text.length ≤ maxChars) : splitText text maxChars = [text] := by
  rw [splitText, if_pos h]

theorem chunker_small_input_identity_witness :
    "hi".data.length ≤ 300 ∧ splitText "hi".data 300 = ["hi".data] :=
  ⟨by decide, chunker_small_input_identity "hi".data 300 (by decide)⟩

/-- Claim C3, counterexample: a text longer than `maxChars` that contains no
character of the actual delimiter class (in particular the ASCII `!` it does
contain is not split on: the source class holds only the fullwidth 。！？ and
newline) is returned as a single chunk, not `≥ 2` chunks. -/
theorem chunker_min_two_chunks_counterexample :
    3 < "aaaa!aaa".data.length ∧ '!' ∈ "aaaa!aaa".data ∧
    (splitText "aaaa!aaa".data 3).length = 1 := by decide

/-- Claim C3 (amended): for every text with `len(text) > maxChars`, the chunks
concatenate to reconstruct the original text exactly; the chunker returns at
least 2 chunks provided the text contains at least one actual delimiter
(fullwidth 。！？ or newline — ASCII `!?` are not in the source's character
class, and a delimiter-free oversized text comes back as one single chunk);
and any chunk exceeding `maxChars` is a single sentence fragment of the split,
emitted unsplit.  (Reconstruction also holds in the `len(text) ≤ maxChars`
branch.) -/
theorem chunker_reconstruction_and_bounds (text : List Char) (maxChars : Nat) :
    (splitText text maxChars).flatten = text
    ∧ (maxChars < text.length → (∃ c ∈ text, isDelim c = true) →
        2 ≤ (splitText text maxChars).length)
    ∧ (∀ chunk ∈ splitText text maxChars, maxChars < chunk.length →
        chunk ∈ splitSent text) := by
  refine ⟨?_, ?_, ?_⟩
  · rw [splitText]
    split
    · simp
    · rw [if_neg (packAux_splitSent_ne_nil _ _), packAux_flatten]
      simp [splitSent_flatten]
  · intro hlen hdelim
    rw [splitText, if_neg (by omega), if_neg (packAux_splitSent_ne_nil _ _)]
    rcases hs : splitSent text with _ | ⟨f, rest⟩
    · exact absurd hs (splitSent_ne_nil _)
    · have h2 := splitSent_length_ge2 text hdelim
      rw [hs] at h2
      have hrest : rest ≠ [] := by
        cases rest
        · simp at h2
        · simp
      rw [packAux, if_neg (by simp)]
      apply packAux_length_ge2
      · simp
      · exact hrest
      · have hflat := splitSent_flatten text
        rw [hs] at hflat
        have hlen2 : f.length + rest.flatten.length = text.length := by
          rw [← hflat]
          simp
        simp only [List.nil_append, List.flatten_cons, List.flatten_nil,
          List.append_nil]
        omega
  · intro chunk hmem hover
    rw [splitText] at hmem
    split at hmem
    · rename_i hle
      simp at hmem
      subst hmem
      omega
    · rw [if_neg (packAux_splitSent_ne_nil _ _)] at hmem
      rcases packAux_oversize maxChars (splitSent text) [] (Or.inl rfl)
          chunk hmem hover with h1 | h2
      · simp at h1
      · exact h2

theorem chunker_reconstruction_and_bounds_witness :
    (splitText "aaaaa。bb".data 3).flatten = "aaaaa。bb".data
    ∧ 2 ≤ (splitText "aaaaa。bb".data 3).length
    ∧ "aaaaa".data ∈ splitSent "aaaaa。bb".data := by
  obtain ⟨h1, h2, h3⟩ := chunker_reconstruction_and_bounds "aaaaa。bb".data 3
  exact ⟨h1, h2 (by decide) (by decide), h3 "aaaaa".data (by decide) (by decide)⟩

theorem splitText_ne_nil (text : List Char) (maxChars : Nat) :
    splitText text maxChars ≠ [] := by
  rw [splitText]
  split
  · simp
  · rw [if_neg (packAux_splitSent_ne_nil _ _)]
    exact packAux_splitSent_ne_nil _ _

theorem zeroVector_getD (i : Nat) : zeroVector.getD i 0 = 0 := by
  rw [zeroVector, List.getD_eq_getElem?_getD, List.getElem?_replicate]
  split <;> simp

theorem avgPool_replicate_zero (k : Nat) (hk : k ≠ 0) :
    avgPool (List.replicate k zeroVector) = zeroVector := by
  cases k with
  | zero => exact absurd rfl hk
  | succ k2 =>
    rw [List.replicate_succ]
    rw [avgPool]
    have h1 : ∀ i : Nat,
        ((zeroVector :: List.replicate k2 zeroVector).map fun e => e.getD i 0) =
          List.replicate (k2 + 1) (0 : ℚ) := by
      intro i
      rw [List.map_cons, List.map_replicate, zeroVector_getD, List.replicate_succ]
    have h2 : (List.range zeroVector.length).map
        (fun i =>
          ((zeroVector :: List.replicate k2 zeroVector).map fun e => e.getD i 0).sum /
            (((zeroVector :: List.replicate k2 zeroVector)).length : ℚ))
        = (List.range zeroVector.length).map fun _ => (0 : ℚ) := by
      apply List.map_congr_left
      intro i _
      rw [h1 i, List.sum_replicate]
      simp
    rw [h2, List.map_const']
    simp only [List.length_range, zeroVector, List.length_replicate]

theorem generateAsync_hit (remote : String → RemoteOutcome)
    (cache : EmbeddingCache) (t : String) (v : List ℚ)
    (h : cache.lookup (cacheKey t) = some v) :
    generateAsync remote cache t = ⟨v, cache, 0⟩ := by
  simp only [generateAsync, h]

theorem generateAsync_miss (remote : String → RemoteOutcome)
    (cache : EmbeddingCache) (t : String)
    (h : cache.lookup (cacheKey t) = none) :
    generateAsync remote cache t =
      ⟨missEmbedding remote t,
       (cacheKey t, missEmbedding remote t) :: cache,
       (splitText t.data 300).length⟩ := by
  simp only [generateAsync, h]

theorem lookup_insert_self (key : String) (v : List ℚ) (cache : EmbeddingCache) :
    ((key, v) :: cache).lookup key = some v := by
  simp [List.lookup]

/-- Claim C5: for every text `t`, every starting cache and every remote
service, calling `generate_async(t)` twice returns bit-identical vectors, the
second call issues no remote call (pure cache hit), and after the first call
the cache maps the SHA-256 hex digest of `t`'s UTF-8 bytes to the returned
vector. -/
theorem embed_idempotent_cached (remote : String → RemoteOutcome)
    (cache : EmbeddingCache) (t : String) :
    (generateAsync remote (generateAsync remote cache t).cache t).embedding
        = (generateAsync remote cache t).embedding
    ∧ (generateAsync remote (generateAsync remote cache t).cache t).remoteCalls = 0
    ∧ (generateAsync remote cache t).cache.lookup (cacheKey t)
        = some (generateAsync remote cache t).embedding := by
  cases h : cache.lookup (cacheKey t) with
  | some v =>
    rw [generateAsync_hit remote cache t v h]
    exact ⟨by rw [generateAsync_hit remote cache t v h],
      by rw [generateAsync_hit remote cache t v h], h⟩
  | none =>
    rw [generateAsync_miss remote cache t h]
    have hl := lookup_insert_self (cacheKey t) (missEmbedding remote t) cache
    have h2 := generateAsync_hit remote
      ((cacheKey t, missEmbedding remote t) :: cache) t (missEmbedding remote t) hl
    rw [h2]
    exact ⟨rfl, rfl, hl⟩

/-- Claim C6: on every input whose remote embedding calls all fail (network
error, non-success status, malformed body) and that is not already cached,
`generate_async` does not propagate the exception: it returns the 1024-dim
zero vector and caches that zero vector under the input's key (the logged
warning is I/O outside the model). -/
theorem embed_failure_zero_vector (remote : String → RemoteOutcome)
    (cache : EmbeddingCache) (t : String)
    (hmiss : cache.lookup (cacheKey t) = none)
    (hfail : ∀ s, ∃ e, remote s = .failure e) :
    (generateAsync remote cache t).embedding = List.replicate 1024 0
    ∧ (generateAsync remote cache t).cache.lookup (cacheKey t)
        = some (List.replicate 1024 0) := by
  have hchunk : ∀ s, generateSingleChunk remote s = zeroVector := by
    intro s
    obtain ⟨e, he⟩ := hfail s
    rw [generateSingleChunk, he]
  have hemb : missEmbedding remote t = zeroVector := by
    rw [missEmbedding]
    split
    · exact hchunk _
    · have hmap : (splitText t.data 300).map
          (fun ch => generateSingleChunk remote ch.asString)
          = (splitText t.data 300).map fun _ => zeroVector :=
        List.map_congr_left fun ch _ => hchunk _
      rw [hmap, List.map_const']
      apply avgPool_replicate_zero
      simp [splitText_ne_nil t.data 300]
  rw [generateAsync_miss remote cache t hmiss]
  constructor
  · rw [hemb]
    rfl
  · rw [hemb, lookup_insert_self]
    rfl

theorem embed_failure_zero_vector_witness :
    ([] : EmbeddingCache).lookup (cacheKey "hello") = none
    ∧ (generateAsync (fun _ => RemoteOutcome.failure "down") [] "hello").embedding
        = List.replicate 1024 0
    ∧ (generateAsync (fun _ => RemoteOutcome.failure "down") [] "hello").cache.lookup
        (cacheKey "hello") = some (List.replicate 1024 0) := by
  have h := embed_failure_zero_vector (fun _ => RemoteOutcome.failure "down") [] "hello"
    rfl (fun _ => ⟨"down", rfl⟩)
  exact ⟨rfl, h.1, h.2⟩

/-- Claim C1, the code evaluated at the failing input: the orchestrator's
keyword path `_keyword_search` is an unimplemented stub returning `[]`
unconditionally (its docstring promises SQLite FTS5 search; its body is a
`TODO` that logs "尚未实现"), so a hybrid search whose semantic path raises
returns the EMPTY list — not the non-empty keyword-only results the claim
describes — no matter what the separately shipped FTS index
(`KnowledgeSearchFTS`, never wired into `KnowledgeSearch`) contains. -/
theorem hybrid_degrade_keyword_stub_empty :
    (∀ q l, keywordSearchStub q l = Except.ok [])
    ∧ searchModel (fun _ _ => Except.error "embedding index down")
        keywordSearchStub "筑基" (some [1]) 10 true = Except.ok [] :=
  ⟨fun _ _ => rfl, by decide⟩

/-- Claim C2, counterexample: with both the semantic and the keyword attempt
raising, `search` returns `ok []` — the empty list, not a single synthetic
result — because `_hybrid_search` catches each exception separately and the
outer handler in `search` is never reached. -/
theorem hybrid_both_fail_counterexample :
    searchModel (fun _ _ => Except.error "semantic down")
        (fun _ _ => Except.error "keyword down") "q" (some [1]) 10 true
      = Except.ok []
    ∧ ¬∃ r : SearchResult,
        searchModel (fun _ _ => Except.error "semantic down")
          (fun _ _ => Except.error "keyword down") "q" (some [1]) 10 true
        = Except.ok [r] := by
  have h1 : searchModel (fun _ _ => Except.error "semantic down")
      (fun _ _ => Except.error "keyword down") "q" (some [1]) 10 true
      = Except.ok [] := by decide
  refine ⟨h1, ?_⟩
  rintro ⟨r, hr⟩
  rw [h1] at hr
  simp at hr

/-- Claim C2 (amended): when both the semantic and the keyword attempt fail
inside `_hybrid_search`, the orchestrator does not raise but returns the
EMPTY list (each exception is caught locally and replaced by `[]`); the
single synthetic "service unavailable" result carrying the error detail in
its metadata is produced only when an exception escapes the chosen strategy
to `search`'s outer handler — e.g. a non-hybrid semantic search whose index
raises. -/
theorem search_both_fail_empty (e1 e2 query : String) (emb : List ℚ)
    (limit : Nat) (hq : query.length ≤ 1000) (hemb : emb ≠ []) :
    searchModel (fun _ _ => Except.error e1) (fun _ _ => Except.error e2)
        query (some emb) limit true = Except.ok []
    ∧ searchModel (fun _ _ => Except.error e1) (fun _ _ => Except.error e2)
        query (some emb) limit false = Except.ok [unavailableResult e1] := by
  have hne : emb.isEmpty = false := by
    cases emb
    · exact absurd rfl hemb
    · rfl
  constructor
  · rw [searchModel, if_neg (by omega)]
    simp [hne, hybridSearch, dedupResults, dedupAux]
  · rw [searchModel, if_neg (by omega)]
    simp [hne]

theorem search_both_fail_empty_witness :
    searchModel (fun _ _ => Except.error "a") (fun _ _ => Except.error "b")
        "q" (some [1]) 10 true = Except.ok []
    ∧ searchModel (fun _ _ => Except.error "a") (fun _ _ => Except.error "b")
        "q" (some [1]) 10 false = Except.ok [unavailableResult "a"] :=
  search_both_fail_empty "a" "b" "q" [1] 10 (by decide) (by decide)

/-- Claim C7, counterexample: `KnowledgeSearchFTS.search` does not clamp the
caller's limit — the SQL `LIMIT ?` receives it unchanged — so with 101
matching rows and a requested `limit = 10000` the keyword index returns 101
results, above the ceiling of 100 the claim asserts for both indexes. -/
theorem limit_clamp_counterexample :
    100 < (ftsSearch (List.replicate 101 ⟨"c", "t", "g", "s", 0, []⟩)
      "q" 10000 false).length := by
  simp [ftsSearch]

/-- Claim C7 (amended): `KnowledgeIndex.search` clamps the requested limit to
the hard ceiling 100 — it never returns more than 100 results however large
the request (the count is `min (min limit 100)` the engine ranking's size) —
but `KnowledgeSearchFTS.search` passes the caller's limit through unclamped
and returns `min limit` (number of matched rows) results. -/
theorem limit_clamp_vector_not_fts (ranking : List VectorHit)
    (matched : List FtsRow) (query : String) (limit : Nat) (highlight : Bool) :
    (knowledgeIndexSearch ranking limit).length ≤ 100
    ∧ (knowledgeIndexSearch ranking limit).length
        = min (min limit 100) ranking.length
    ∧ (ftsSearch matched query limit highlight).length
        = min limit matched.length := by
  refine ⟨?_, ?_, ?_⟩
  · simp only [knowledgeIndexSearch, List.length_map, List.length_take]
    omega
  · simp [knowledgeIndexSearch]
  · simp [ftsSearch]

theorem dedupAux_sublist (l : List SearchResult) :
    ∀ seen, (dedupAux seen l).Sublist l := by
  induction l with
  | nil => intro seen; simp [dedupAux]
  | cons r rest ih =>
    intro seen
    rw [dedupAux]
    split
    · exact (ih seen).cons r
    · exact (ih _).cons₂ r

theorem dedupAux_not_seen (l : List SearchResult) :
    ∀ seen x, x ∈ dedupAux seen l → dedupKey x ∉ seen := by
  induction l with
  | nil => intro seen x hx; simp [dedupAux] at hx
  | cons r rest ih =>
    intro seen x hx
    rw [dedupAux] at hx
    split at hx
    · exact ih seen x hx
    · rename_i hns
      rcases List.mem_cons.mp hx with rfl | h2
      · exact hns
      · have h3 := ih _ x h2
        exact fun hmem => h3 (List.mem_cons_of_mem _ hmem)

theorem dedupAux_pairwise (l : List SearchResult) :
    ∀ seen, (dedupAux seen l).Pairwise (fun a b => dedupKey a ≠ dedupKey b) := by
  induction l with
  | nil => intro seen; simp [dedupAux]
  | cons r rest ih =>
    intro seen
    rw [dedupAux]
    split
    · exact ih seen
    · refine List.Pairwise.cons ?_ (ih _)
      intro b hb heq
      exact dedupAux_not_seen rest _ b hb (by rw [← heq]; exact List.mem_cons_self _ _)

theorem dedupAux_filter_seen (l : List SearchResult) :
    ∀ seen k, k ∈ seen →
      (dedupAux seen l).filter (fun x => dedupKey x == k) = [] := by
  induction l with
  | nil => intro seen k _; simp [dedupAux]
  | cons r rest ih =>
    intro seen k hk
    rw [dedupAux]
    split
    · exact ih seen k hk
    · rename_i hns
      have hne : (dedupKey r == k) = false := by
        simp only [beq_eq_false_iff_ne, ne_eq]
        intro heq
        exact hns (heq ▸ hk)
      rw [List.filter_cons]
      simp only [hne, Bool.false_eq_true, if_false]
      exact ih _ k (List.mem_cons_of_mem _ hk)

theorem dedupAux_filter_one (l : List SearchResult) :
    ∀ seen k, k ∉ seen → (∃ r ∈ l, dedupKey r = k) →
      ((dedupAux seen l).filter (fun x => dedupKey x == k)).length = 1 := by
  induction l with
  | nil =>
    intro seen k _ hex
    obtain ⟨r, hr, _⟩ := hex
    simp at hr
  | cons r rest ih =>
    intro seen k hk hex
    rw [dedupAux]
    split
    · rename_i hseen
      apply ih seen k hk
      obtain ⟨x, hx, hkey⟩ := hex
      rcases List.mem_cons.mp hx with rfl | h2
      · exact absurd (hkey ▸ hseen) hk
      · exact ⟨x, h2, hkey⟩
    · rename_i hns
      by_cases hkr : dedupKey r = k
      · rw [List.filter_cons]
        simp only [hkr, beq_self_eq_true, if_true]
        rw [dedupAux_filter_seen rest _ k
          (by rw [← hkr]; exact List.mem_cons_self _ _)]
        rfl
      · rw [List.filter_cons]
        have hne : (dedupKey r == k) = false := by
          simp [beq_eq_false_iff_ne, hkr]
        simp only [hne, Bool.false_eq_true, if_false]
        apply ih _ k
        · intro hmem
          rcases List.mem_cons.mp hmem with heq | h2
          · exact hkr heq.symm
          · exact hk h2
        · obtain ⟨x, hx, hkey⟩ := hex
          rcases List.mem_cons.mp hx with rfl | h2
          · exact absurd hkey hkr
          · exact ⟨x, h2, hkey⟩

theorem dedupAux_congr (l : List SearchResult) :
    ∀ s1 s2, (∀ k, k ∈ s1 ↔ k ∈ s2) → dedupAux s1 l = dedupAux s2 l := by
  induction l with
  | nil => intro s1 s2 _; rfl
  | cons r rest ih =>
    intro s1 s2 h
    rw [dedupAux, dedupAux]
    by_cases hk : dedupKey r ∈ s1
    · rw [if_pos hk, if_pos ((h _).mp hk)]
      exact ih s1 s2 h
    · rw [if_neg hk, if_neg (fun hx => hk ((h _).mpr hx))]
      exact congrArg (List.cons r)
        (ih _ _ (fun k2 => by simp only [List.mem_cons]; rw [h k2]))

theorem dedupAux_cons_key (l : List SearchResult) :
    ∀ seen k, dedupAux (k :: seen) l
      = dedupAux seen (l.filter fun x => dedupKey x != k) := by
  induction l with
  | nil => intro seen k; rfl
  | cons r rest ih =>
    intro seen k
    by_cases hrk : dedupKey r = k
    · rw [dedupAux, if_pos (by simp [hrk]), List.filter_cons]
      have hf : (dedupKey r != k) = false := by simp [hrk]
      simp only [hf, Bool.false_eq_true, if_false]
      exact ih seen k
    · rw [List.filter_cons]
      have ht : (dedupKey r != k) = true := by simp [hrk]
      simp only [ht, if_true]
      by_cases hrs : dedupKey r ∈ seen
      · rw [dedupAux, if_pos (by simp [hrs]), dedupAux, if_pos hrs]
        exact ih seen k
      · rw [dedupAux, if_neg (by simp [hrk, hrs]), dedupAux, if_neg hrs]
        refine congrArg (List.cons r) ?_
        rw [dedupAux_congr rest (dedupKey r :: k :: seen) (k :: dedupKey r :: seen)
          (by intro k2; simp only [List.mem_cons]; exact or_left_comm)]
        exact ih (dedupKey r :: seen) k

theorem dedupResults_first_kept (r : SearchResult) (rest : List SearchResult) :
    dedupResults (r :: rest)
      = r :: dedupResults (rest.filter fun x => dedupKey x != dedupKey r) := by
  rw [dedupResults, dedupAux, if_neg (by simp)]
  rw [dedupAux_cons_key]
  rfl

/-- Claim C8: in every hybrid merge, semantic results are placed before
keyword results (the merge runs over `semantic ++ keyword`); the dedup key of
a result is its metadata `source` concatenated with the first 50 characters
of its content (`dedupKey`); the first occurrence of each key in iteration
order is kept and every later result with that key is dropped (so results
sharing source and 50-character prefix leave exactly one survivor); and the
deduplicated list is truncated to `limit`. -/
theorem hybrid_merge_dedup (semR kwR : List SearchResult) (query : String)
    (emb : List ℚ) (limit : Nat) :
    hybridSearch (fun _ _ => .ok semR) (fun _ _ => .ok kwR) query emb limit
      = (dedupResults (semR ++ kwR)).take limit
    ∧ (∀ (r : SearchResult) (rest : List SearchResult), dedupResults (r :: rest)
        = r :: dedupResults (rest.filter fun x => dedupKey x != dedupKey r))
    ∧ (dedupResults (semR ++ kwR)).Sublist (semR ++ kwR)
    ∧ (dedupResults (semR ++ kwR)).Pairwise (fun a b => dedupKey a ≠ dedupKey b)
    ∧ ∀ r ∈ semR ++ kwR,
        ((dedupResults (semR ++ kwR)).filter
          (fun x => dedupKey x == dedupKey r)).length = 1 :=
  ⟨rfl, dedupResults_first_kept, dedupAux_sublist _ [], dedupAux_pairwise _ [],
   fun r hr => dedupAux_filter_one _ [] _ (by simp) ⟨r, hr, rfl⟩⟩

theorem hybrid_merge_dedup_witness :
    hybridSearch (fun _ _ => .ok [⟨"abc", [("source", "doc")], some 0⟩])
        (fun _ _ => .ok [⟨"abc", [("source", "doc")], none⟩]) "q" [1] 10
      = (dedupResults ([⟨"abc", [("source", "doc")], some 0⟩] ++
          [⟨"abc", [("source", "doc")], none⟩])).take 10
    ∧ ((dedupResults ([⟨"abc", [("source", "doc")], some 0⟩] ++
          [⟨"abc", [("source", "doc")], none⟩])).filter
        (fun x => dedupKey x == dedupKey ⟨"abc", [("source", "doc")], none⟩)).length
      = 1 :=
  let h := hybrid_merge_dedup [⟨"abc", [("source", "doc")], some 0⟩]
    [⟨"abc", [("source", "doc")], none⟩] "q" [1] 10
  ⟨h.1, h.2.2.2.2 ⟨"abc", [("source", "doc")], none⟩ (by decide)⟩

/-- Claim C10 (implicit): `add_documents` assigns ids
`doc_0 … doc_{n-1}` determined solely by each document's position inside the
call — independent of what the store already holds — so any two calls with
nonempty document lists assign colliding ids ("doc_0" belongs to both) rather
than fresh insertion-order surrogate keys. -/
theorem add_documents_position_ids (docs docs2 : List VDoc)
    (store : List (String × VDoc)) :
    (∀ i, i < docs.length → (addDocIds docs).getD i "" = "doc_" ++ toString i)
    ∧ (docs.length = docs2.length → addDocIds docs = addDocIds docs2)
    ∧ (addDocuments store docs).2 = docs.length
    ∧ (docs ≠ [] →
        (addDocuments store docs).1 = store ++ (addDocIds docs).zip docs)
    ∧ (docs ≠ [] → docs2 ≠ [] →
        "doc_0" ∈ addDocIds docs ∧ "doc_0" ∈ addDocIds docs2) := by
  have hmem : ∀ (ds : List VDoc), ds ≠ [] → "doc_0" ∈ addDocIds ds := by
    intro ds hds
    rw [addDocIds]
    refine List.mem_map.mpr ⟨0, ?_, by decide⟩
    refine List.mem_range.mpr ?_
    cases ds with
    | nil => exact absurd rfl hds
    | cons d tl => simp
  refine ⟨?_, ?_, ?_, ?_, ?_⟩
  · intro i hi
    simp [addDocIds, List.getD_eq_getElem?_getD, List.getElem?_map,
      List.getElem?_range, hi]
  · intro h
    rw [addDocIds, addDocIds, h]
  · rw [addDocuments]
    split
    · rename_i h
      simp [h]
    · rfl
  · intro h
    rw [addDocuments, if_neg h]
  · intro h1 h2
    exact ⟨hmem docs h1, hmem docs2 h2⟩

theorem add_documents_position_ids_witness :
    (addDocIds [⟨"a", []⟩]).getD 0 "" = "doc_" ++ toString 0
    ∧ (addDocuments [] [⟨"a", []⟩]).1 = [] ++ (addDocIds [⟨"a", []⟩]).zip [⟨"a", []⟩]
    ∧ "doc_0" ∈ addDocIds [⟨"a", []⟩] ∧ "doc_0" ∈ addDocIds [⟨"b", []⟩] :=
  let h := add_documents_position_ids [⟨"a", []⟩] [⟨"b", []⟩] []
  ⟨h.1 0 (by decide), h.2.2.2.1 (by decide), h.2.2.2.2 (by decide) (by decide)⟩

theorem matchAt_nil_false (kw : List Char) (h : kw ≠ []) : matchAt kw [] = false := by
  rw [matchAt]
  cases kw with
  | nil => exact absurd rfl h
  | cons c cs => simp

theorem highlightAuxF_no_occ (kw : List Char) (hkw : kw ≠ []) :
    ∀ (fuel : Nat) (text : List Char), text.length ≤ fuel →
      countOcc kw text = 0 → highlightAuxF fuel kw text = text := by
  intro fuel
  induction fuel with
  | zero =>
    intro text _ _
    rw [highlightAuxF]
  | succ f ih =>
    intro text hlen hocc
    cases text with
    | nil => rw [highlightAuxF]
    | cons c rest =>
      rw [countOcc] at hocc
      have hm : matchAt kw (c :: rest) = false := by
        rcases h : matchAt kw (c :: rest)
        · rfl
        · rw [h] at hocc
          simp at hocc
      rw [highlightAuxF, if_neg (by simp [hm])]
      refine congrArg (List.cons c) (ih rest (by simpa using hlen) ?_)
      rw [hm] at hocc
      simpa using hocc

theorem highlightAuxF_first_occ (kw : List Char) (hkw : kw ≠ []) :
    ∀ (fuel : Nat) (text : List Char), text.length ≤ fuel →
      0 < countOcc kw text →
      ∃ pre m post, highlightAuxF fuel kw text
          = pre ++ '*' :: '*' :: (m ++ '*' :: '*' :: post)
        ∧ m.map Char.toLower = kw.map Char.toLower := by
  intro fuel
  induction fuel with
  | zero =>
    intro text hlen hocc
    have htext : text = [] := List.length_eq_zero.mp (Nat.le_zero.mp hlen)
    subst htext
    rw [countOcc, matchAt_nil_false kw hkw] at hocc
    simp at hocc
  | succ f ih =>
    intro text hlen hocc
    cases text with
    | nil =>
      rw [countOcc, matchAt_nil_false kw hkw] at hocc
      simp at hocc
    | cons c rest =>
      by_cases hm : matchAt kw (c :: rest) = true
      · refine ⟨[], (c :: rest).take kw.length,
          highlightAuxF f kw ((c :: rest).drop kw.length), ?_, ?_⟩
        · rw [highlightAuxF, if_pos ⟨hm, hkw⟩]
          rfl
        · rw [matchAt] at hm
          exact eq_of_beq hm
      · have hm2 : matchAt kw (c :: rest) = false := by
          rcases h : matchAt kw (c :: rest)
          · rfl
          · exact absurd h hm
        rw [countOcc, hm2] at hocc
        obtain ⟨pre, m, post, heq, hlow⟩ :=
          ih rest (by simpa using hlen) (by simpa using hocc)
        refine ⟨c :: pre, m, post, ?_, hlow⟩
        rw [highlightAuxF, if_neg (by simp [hm2]), heq]
        rfl

/-- Claim C9, counterexample: two case-insensitive occurrences of the token
"aa" (stripped length 2) exist in "aaa", but the non-overlapping left-to-right
substitution of `_highlight_matches` wraps only the first: the occurrence at
index 1 overlaps the consumed match and stays unhighlighted, so not "every"
occurrence is wrapped. -/
theorem highlight_every_occurrence_counterexample :
    highlightMatches "aaa" "aa" = "**aa**a"
    ∧ countOcc "aa".data "aaa".data = 2
    ∧ countOcc "**aa**".data "**aa**a".data = 1 := by decide

/-- Claim C9 (amended): query tokens whose form after stripping punctuation
is shorter than 2 characters leave the content unchanged; for a stripped
token of length ≥ 2 a pass over the text wraps each match found by the
left-to-right NON-OVERLAPPING case-insensitive scan in `**...**` — a pass on
a text with no occurrence returns it unchanged, and on a text with an
occurrence the output contains a wrapped match of the token; occurrences
overlapping an earlier match (or markers inserted by an earlier token's
pass) are missed.  Passes for distinct tokens run sequentially over the
running text. -/
theorem highlight_matches_scan :
    (∀ (text query : String),
        (∀ kw ∈ splitWS query.data, (stripBoth kw).length < 2) →
        highlightMatches text query = text)
    ∧ (∀ (kw text : List Char), kw ≠ [] → countOcc kw text = 0 →
        highlightOne text kw = text)
    ∧ (∀ (kw text : List Char), kw ≠ [] → 0 < countOcc kw text →
        ∃ pre m post, highlightOne text kw
            = pre ++ '*' :: '*' :: (m ++ '*' :: '*' :: post)
          ∧ m.map Char.toLower = kw.map Char.toLower) := by
  refine ⟨?_, ?_, ?_⟩
  · intro text query hshort
    rw [highlightMatches]
    have hfold : ∀ (kws : List (List Char)) (acc : List Char),
        (∀ kw ∈ kws, (stripBoth kw).length < 2) →
        kws.foldl (fun acc kw =>
          let clean := stripBoth kw
          if clean.length < 2 then acc else highlightOne acc clean) acc = acc := by
      intro kws
      induction kws with
      | nil => intro acc _; rfl
      | cons kw rest ih =>
        intro acc h
        rw [List.foldl_cons]
        simp only
        rw [if_pos (h kw (by simp))]
        exact ih acc (fun x hx => h x (by simp [hx]))
    rw [hfold (splitWS query.data) text.data hshort]
    rfl
  · intro kw text hkw hocc
    exact highlightAuxF_no_occ kw hkw text.length text le_rfl hocc
  · intro kw text hkw hocc
    exact highlightAuxF_first_occ kw hkw text.length text le_rfl hocc

theorem highlight_matches_scan_witness :
    highlightMatches "hi there" "x" = "hi there"
    ∧ highlightOne "zzz".data "ab".data = "zzz".data
    ∧ ∃ pre m post, highlightOne "zab".data "ab".data
        = pre ++ '*' :: '*' :: (m ++ '*' :: '*' :: post)
      ∧ m.map Char.toLower = "ab".data.map Char.toLower :=
  let h := highlight_matches_scan
  ⟨h.1 "hi there" "x" (by decide),
   h.2.1 "ab".data "zzz".data (by decide) (by decide),
   h.2.2 "ab".data "zab".data (by decide) (by decide)⟩
